import Mathlib

/-!
Shallow embedding of `rds_param_group_util.py` (EpiJunkie/aws_rds_parameter_groups_utility).

A boto3 parameter record is a Python dict with a `"ParameterName"` key (always
present), an optional `"ParameterValue"` key, an `"IsModifiable"` boolean and
further descriptive fields treated as opaque pass-through data.  We embed it as
a structure; `rest` holds the opaque fields.  Remote I/O (boto3 calls) is made
explicit: fetchers take the service's response sequence as input and return the
requests they issued, and mutating workflows return the list of remote mutation
calls they performed.
-/

structure ParameterRecord where
  name : String
  value : Option String
  isModifiable : Bool
  rest : List (String × String)
deriving DecidableEq, Repr

/-- Dict-style access `r[k]` on the embedded record, for the keys the script
uses.  `"ParameterName"` is always present; `"ParameterValue"` may be absent
(`none`); other keys are looked up in the pass-through fields. -/
def ParameterRecord.get (r : ParameterRecord) (k : String) : Option String :=
  if k = "ParameterName" then some r.name
  else if k = "ParameterValue" then r.value
  else r.rest.lookup k

/-- Embeds `append_if_value_present(list_to_append, eval_append)`: appends the
record to the list exactly when the `"ParameterValue"` key is present. -/
def append_if_value_present (list_to_append : List ParameterRecord)
    (eval_append : ParameterRecord) : List ParameterRecord :=
  if eval_append.value.isSome then list_to_append ++ [eval_append] else list_to_append

/-- Python dict assignment `d[k] = v` on an insertion-ordered association list:
an existing key is updated in place, a fresh key is appended. -/
def dictInsert (d : List (String × ParameterRecord)) (k : String)
    (v : ParameterRecord) : List (String × ParameterRecord) :=
  if k ∈ d.map Prod.fst then d.map (fun p => if p.1 = k then (k, v) else p)
  else d ++ [(k, v)]

/-- The loop body of `change_list_to_dict`.  Note the faithful rendering of the
source's duplicate check: the code tests `if key in dict_to_export.keys()`,
i.e. whether the literal key-name string (`"ParameterName"` at every call site)
is among the keys inserted so far — not whether the current record's key value
is.  `each_obj_in_list[key]` raising `KeyError` on a missing key is rendered as
an error result. -/
def change_list_to_dict_go (key : String) :
    List ParameterRecord → List (String × ParameterRecord) →
    Except String (List (String × ParameterRecord))
  | [], dict_to_export => Except.ok dict_to_export
  | each_obj :: rest, dict_to_export =>
    if key ∈ dict_to_export.map Prod.fst then
      Except.error "This key name is not unique."
    else
      match each_obj.get key with
      | some kv => change_list_to_dict_go key rest (dictInsert dict_to_export kv each_obj)
      | none => Except.error "KeyError"

/-- Embeds `change_list_to_dict(list_to_convert, key)`. -/
def change_list_to_dict (list_to_convert : List ParameterRecord) (key : String) :
    Except String (List (String × ParameterRecord)) :=
  change_list_to_dict_go key list_to_convert []

/-- Embeds the generator `chunks(sequence, chunk_size)`.  The Python loop keeps
a running `start`, yielding `sequence[start : start + chunk_size]` and stepping
`start` by `chunk_size` while `start < len(sequence)`; each yielded slice is
`(sequence.drop start).take chunk_size`, so the whole run is this recursion on
the not-yet-yielded suffix.  For `chunk_size = 0` the Python loop never
terminates on a non-empty sequence; we return `[]` there (the claims only
concern positive chunk sizes). -/
def chunks {α : Type} : List α → Nat → List (List α)
  | [], _ => []
  | a :: as, chunk_size =>
    if h : chunk_size = 0 then []
    else List.take chunk_size (a :: as) :: chunks (List.drop chunk_size (a :: as)) chunk_size
termination_by l _ => l.length
decreasing_by
  simp only [List.length_drop, List.length_cons]
  omega

theorem chunks_nil {α : Type} (n : Nat) : chunks ([] : List α) n = [] := by
  rw [chunks]

theorem chunks_cons_zero {α : Type} (a : α) (as : List α) :
    chunks (a :: as) 0 = [] := by
  rw [chunks.eq_def]
  simp

theorem chunks_cons {α : Type} (a : α) (as : List α) (n : Nat) (hn : n ≠ 0) :
    chunks (a :: as) n =
      List.take n (a :: as) :: chunks (List.drop n (a :: as)) n := by
  rw [chunks]
  simp [hn]

/-- Concatenating the chunks reproduces the input list. -/
theorem chunks_flatten {α : Type} (l : List α) (n : Nat) (hn : n ≠ 0) :
    (chunks l n).flatten = l := by
  induction l, n using chunks.induct with
  | case1 n => simp [chunks_nil]
  | case2 a as => exact absurd rfl hn
  | case3 a as n h ih =>
    rw [chunks_cons a as n h]
    simp only [List.flatten_cons]
    rw [ih h]
    exact List.take_append_drop n (a :: as)

/-- Every chunk has length at most the chunk size. -/
theorem chunks_length_le {α : Type} (l : List α) (n : Nat) (c : List α)
    (hc : c ∈ chunks l n) : c.length ≤ n := by
  induction l, n using chunks.induct with
  | case1 n => simp [chunks_nil] at hc
  | case2 a as => simp [chunks_cons_zero] at hc
  | case3 a as n h ih =>
    rw [chunks_cons a as n h] at hc
    rcases List.mem_cons.mp hc with hhead | htail
    · subst hhead
      simpa using List.length_take_le n (a :: as)
    · exact ih htail

/-- The number of chunks is the ceiling of the input length over the size. -/
theorem chunks_length {α : Type} (l : List α) (n : Nat) (hn : n ≠ 0) :
    (chunks l n).length = (l.length + n - 1) / n := by
  induction l, n using chunks.induct with
  | case1 n =>
    rw [chunks_nil]
    simp only [List.length_nil, Nat.zero_add]
    exact (Nat.div_eq_of_lt (by omega)).symm
  | case2 a as => exact absurd rfl hn
  | case3 a as n h ih =>
    rw [chunks_cons a as n h]
    rw [List.length_cons, ih h]
    simp only [List.length_drop, List.length_cons]
    have h2 : as.length + 1 + n - 1 = as.length + n := by omega
    rw [h2, Nat.add_div_right as.length (Nat.pos_of_ne_zero h)]
    rcases Nat.le_total n (as.length + 1) with hge | hle
    · have h1 : as.length + 1 - n + n - 1 = as.length := by omega
      rw [h1]
    · have h1 : as.length + 1 - n + n - 1 = n - 1 := by omega
      rw [h1, Nat.div_eq_of_lt (by omega), Nat.div_eq_of_lt (by omega)]

/-- Every element of every chunk is an element of the input list. -/
theorem chunks_mem_subset {α : Type} (l : List α) (n : Nat) (c : List α)
    (hc : c ∈ chunks l n) : ∀ x ∈ c, x ∈ l := by
  induction l, n using chunks.induct with
  | case1 n => simp [chunks_nil] at hc
  | case2 a as => simp [chunks_cons_zero] at hc
  | case3 a as n h ih =>
    rw [chunks_cons a as n h] at hc
    rcases List.mem_cons.mp hc with hhead | htail
    · subst hhead
      exact fun x hx => List.take_subset n (a :: as) hx
    · exact fun x hx => List.drop_subset n (a :: as) (ih htail x hx)

/-- C3: the chunking function: concatenation reproduces the list, every chunk
has length at most the batch size, and the chunk count is the ceiling of the
length over the batch size. -/
theorem chunks_spec {α : Type} (L : List α) (B : Nat) (hB : 0 < B) :
    (chunks L B).flatten = L ∧
    (∀ c ∈ chunks L B, c.length ≤ B) ∧
    (chunks L B).length = (L.length + B - 1) / B :=
  ⟨chunks_flatten L B (Nat.pos_iff_ne_zero.mp hB),
   fun c hc => chunks_length_le L B c hc,
   chunks_length L B (Nat.pos_iff_ne_zero.mp hB)⟩

/-- C3 witness: the chunking properties evaluated at a concrete list and size. -/
theorem chunks_spec_witness :
    (chunks [1, 2, 3] 2).flatten = [1, 2, 3] ∧
    (∀ c ∈ chunks [1, 2, 3] 2, c.length ≤ 2) ∧
    (chunks [1, 2, 3] 2).length = ([1, 2, 3].length + 2 - 1) / 2 :=
  chunks_spec [1, 2, 3] 2 (by decide)

/-- C1: the duplicate-key guard in `change_list_to_dict` never fires on a
duplicate record name — the source compares the literal key-name string
against the accumulated keys — so a collection with two records named `"a"`
is silently reindexed into a single-entry mapping (the second record
overwrites the first) instead of raising. -/
theorem change_list_to_dict_duplicate_silently_overwrites :
    change_list_to_dict
        [ParameterRecord.mk "a" (some "1") true [],
         ParameterRecord.mk "a" (some "2") true []] "ParameterName" =
      Except.ok [("a", ParameterRecord.mk "a" (some "2") true [])] := by
  rfl

/-- One line block of the diff-like comparison report printed by
`compare_rds_parameters`: a source-only record (printed with `<`), a changed
record (printed with both `<` and `>`), or a destination-only record (printed
with `>`). -/
inductive ReportEntry
  | sourceOnly (name : String) (src : ParameterRecord)
  | changed (name : String) (src : ParameterRecord) (dst : ParameterRecord)
  | destOnly (name : String) (dst : ParameterRecord)
deriving DecidableEq, Repr

/-- Embeds the first loop of `compare_rds_parameters`: iterate over the source
mapping's items in insertion order; a name absent from the (mutating)
destination mapping is reported as source-only and appended to the diff list
via `append_if_value_present`; a name present with an unequal record is
reported as changed, appended likewise, and deleted from the destination
mapping; an equal record contributes nothing.  Returns the report lines, the
diff list and the remaining destination mapping. -/
def compare_loop1 :
    List (String × ParameterRecord) → List (String × ParameterRecord) →
    List ReportEntry → List ParameterRecord →
    List ReportEntry × List ParameterRecord × List (String × ParameterRecord)
  | [], dest_parameters, report, diff_list => (report, diff_list, dest_parameters)
  | (param_name, src) :: rest, dest_parameters, report, diff_list =>
    match dest_parameters.lookup param_name with
    | none =>
      compare_loop1 rest dest_parameters
        (report ++ [ReportEntry.sourceOnly param_name src])
        (append_if_value_present diff_list src)
    | some dst =>
      if src = dst then compare_loop1 rest dest_parameters report diff_list
      else
        compare_loop1 rest
          (dest_parameters.filter (fun p => decide (p.1 ≠ param_name)))
          (report ++ [ReportEntry.changed param_name src dst])
          (append_if_value_present diff_list src)

/-- Embeds the second loop of `compare_rds_parameters`: every item remaining in
the destination mapping whose name is not a key of the source mapping is
reported as destination-only (and nothing is added to the diff list). -/
def compare_loop2 (source_parameters dest_parameters : List (String × ParameterRecord)) :
    List ReportEntry :=
  dest_parameters.filterMap (fun p =>
    if p.1 ∈ source_parameters.map Prod.fst then none
    else some (ReportEntry.destOnly p.1 p.2))

/-- Embeds `compare_rds_parameters` after the two collections have been
fetched (the boto3 fetches are abstracted into the two list arguments; the
header prints carry no data used later).  Both collections are reindexed with
`change_list_to_dict` keyed on `"ParameterName"`, then the two loops run.
Returns the report lines in print order together with the diff list. -/
def compare_rds_parameters (source_parameters dest_parameters : List ParameterRecord) :
    Except String (List ReportEntry × List ParameterRecord) :=
  match change_list_to_dict source_parameters "ParameterName" with
  | Except.error e => Except.error e
  | Except.ok sp =>
    match change_list_to_dict dest_parameters "ParameterName" with
    | Except.error e => Except.error e
    | Except.ok dp =>
      match compare_loop1 sp dp [] [] with
      | (report1, diff_list, dest_remaining) =>
        Except.ok (report1 ++ compare_loop2 sp dest_remaining, diff_list)

/-- One `modify_db_parameter_group` call issued to the remote service. -/
structure ModifyCall where
  group : String
  parameters : List ParameterRecord
deriving DecidableEq, Repr

/-- The chunk loop of `post_parameters_to_group`: for each chunk, the modify
call is issued first, then the observability print accesses
`p["ParameterName"]` and `p["ParameterValue"]` for every record of the chunk —
the latter raises `KeyError` when the record has no value.  Returns the calls
issued (including the one preceding a failed print) and the error, if any. -/
def post_parameters_go (param_group : String) :
    List (List ParameterRecord) → List ModifyCall × Option String
  | [] => ([], none)
  | parameter_chunk :: rest =>
    if parameter_chunk.all (fun p => p.value.isSome) then
      match post_parameters_go param_group rest with
      | (calls, err) => (ModifyCall.mk param_group parameter_chunk :: calls, err)
    else ([ModifyCall.mk param_group parameter_chunk], some "KeyError")

/-- Embeds `post_parameters_to_group(rds_client_obj, param_group, parameters)`:
returns immediately on an empty list, otherwise posts the parameters in chunks
of 20. -/
def post_parameters_to_group (param_group : String)
    (parameters : List ParameterRecord) : List ModifyCall × Option String :=
  if parameters.length = 0 then ([], none)
  else post_parameters_go param_group (chunks parameters 20)

/-- Embeds
`return_all_modifiable_parameters_with_value_from_parameter_group`, with the
paginated fetch abstracted into the `all_parameters` argument: keep the
records whose `IsModifiable` flag is true, through `append_if_value_present`
(so only when a value is present). -/
def return_all_modifiable_parameters_with_value_from_parameter_group
    (all_parameters : List ParameterRecord) : List ParameterRecord :=
  all_parameters.foldl
    (fun parameters_to_return p =>
      if p.isModifiable then append_if_value_present parameters_to_return p
      else parameters_to_return)
    []

/-- A remote call that mutates service state (`copy_rds_parameters` issues a
create followed by modify calls; the describe/list calls it makes earlier are
read-only). -/
inductive RemoteMutation
  | createGroup (name : String) (family : String) (description : String)
  | modifyGroup (call : ModifyCall)
deriving DecidableEq, Repr

/-- Embeds `copy_rds_parameters`.  The read-only prelude (describe source
group, fetch and filter its parameters, list the destination region's groups)
is abstracted into the arguments.  If the destination name already exists in
the destination region the function raises before issuing any mutation;
otherwise it creates the destination group and posts the filtered source
parameters.  Returns the mutating calls issued in order, and the error if
any. -/
def copy_rds_parameters (source_family source_description : String)
    (source_all_parameters : List ParameterRecord)
    (groups_in_dest_region : List String)
    (dest_param_group : String) : List RemoteMutation × Option String :=
  let source_parameters :=
    return_all_modifiable_parameters_with_value_from_parameter_group source_all_parameters
  if dest_param_group ∈ groups_in_dest_region then
    ([], some ("This group (" ++ dest_param_group ++ ") already exists in region."))
  else
    match post_parameters_to_group dest_param_group source_parameters with
    | (calls, err) =>
      (RemoteMutation.createGroup dest_param_group source_family source_description
         :: calls.map RemoteMutation.modifyGroup, err)

/-- Embeds `merge_rds_parameters`: run the comparison for its diff list, then
post the diff list to the destination group. -/
def merge_rds_parameters (dest_param_group : String)
    (source_parameters dest_parameters : List ParameterRecord) :
    Except String (List ModifyCall × Option String) := do
  let r ← compare_rds_parameters source_parameters dest_parameters
  Except.ok (post_parameters_to_group dest_param_group r.2)

/-- One paginated response of `describe_db_parameters`: the `"Parameters"`
records and the optional `"Marker"` cursor (absent on the final page). -/
structure PageResponse where
  records : List ParameterRecord
  marker : Option String
deriving DecidableEq, Repr

/-- One `describe_db_parameters` request: the group name and the `Marker`
cursor sent (`none` for the initial request). -/
structure PageRequest where
  group : String
  marker : Option String
deriving DecidableEq, Repr

/-- The pagination loop of `return_all_parameters_from_parameter_group`.  The
service is modelled by the sequence of responses it will return, consumed one
per request.  `reqMarker` is the cursor carried by the next request (`none`
initially, mirroring `pagination_token == None`).  When a response omits the
`"Marker"` field the token becomes the stop sentinel and the loop breaks, so
the function returns without touching later entries; an exhausted response
list with the loop still running has no Python counterpart (the service
always answers) and yields no further requests or records. -/
def return_all_parameters_go (param_group : String) :
    Option String → List PageResponse → List PageRequest × List ParameterRecord
  | _, [] => ([], [])
  | reqMarker, resp :: rest =>
    let req : PageRequest := PageRequest.mk param_group reqMarker
    match resp.marker with
    | some m =>
      match return_all_parameters_go param_group (some m) rest with
      | (reqs, recs) => (req :: reqs, resp.records ++ recs)
    | none => ([req], resp.records)

/-- Embeds `return_all_parameters_from_parameter_group`, with the remote
service abstracted into its response sequence: returns the requests issued and
the accumulated records. -/
def return_all_parameters_from_parameter_group (param_group : String)
    (responses : List PageResponse) : List PageRequest × List ParameterRecord :=
  return_all_parameters_go param_group none responses

/-- Embeds the module-level line `default_source_region =
environ['AWS_DEFAULT_REGION']`, which raises `KeyError` at import time when
the variable is unset. -/
def default_source_region (env_default_region : Option String) :
    Except String String :=
  match env_default_region with
  | none => Except.error "KeyError: AWS_DEFAULT_REGION"
  | some region => Except.ok region

/-- Embeds startup resolution of the source region: the module-level read of
the ambient default runs first (before, and regardless of, argument parsing),
then `--source-region` falls back to that default when not supplied. -/
def startup_source_region (env_default_region : Option String)
    (supplied_source_region : Option String) : Except String String := do
  let default_region ← default_source_region env_default_region
  Except.ok (supplied_source_region.getD default_region)

/-- The record's `"ParameterName"` entry is its name. -/
theorem ParameterRecord.get_name (r : ParameterRecord) :
    r.get "ParameterName" = some r.name := rfl

theorem append_if_value_present_mem (l : List ParameterRecord)
    (r q : ParameterRecord) (hq : q ∈ append_if_value_present l r) :
    q ∈ l ∨ (q = r ∧ q.value.isSome = true) := by
  unfold append_if_value_present at hq
  by_cases hv : r.value.isSome = true
  · rw [if_pos hv] at hq
    rcases List.mem_append.mp hq with h | h
    · exact Or.inl h
    · exact Or.inr ⟨List.mem_singleton.mp h, by rw [List.mem_singleton.mp h]; exact hv⟩
  · rw [if_neg hv] at hq
    exact Or.inl hq

theorem dictInsert_mem (d : List (String × ParameterRecord)) (k : String)
    (v : ParameterRecord) (p : String × ParameterRecord)
    (hp : p ∈ dictInsert d k v) : p ∈ d ∨ p = (k, v) := by
  unfold dictInsert at hp
  by_cases hk : k ∈ d.map Prod.fst
  · rw [if_pos hk] at hp
    rcases List.mem_map.mp hp with ⟨q, hq, hqp⟩
    by_cases hq1 : q.1 = k
    · rw [if_pos hq1] at hqp; exact Or.inr hqp.symm
    · rw [if_neg hq1] at hqp; exact Or.inl (hqp ▸ hq)
  · rw [if_neg hk] at hp
    rcases List.mem_append.mp hp with h | h
    · exact Or.inl h
    · exact Or.inr (List.mem_singleton.mp h)

theorem dictInsert_keys_update (d : List (String × ParameterRecord)) (k : String)
    (v : ParameterRecord) (hk : k ∈ d.map Prod.fst) :
    (dictInsert d k v).map Prod.fst = d.map Prod.fst := by
  unfold dictInsert
  rw [if_pos hk, List.map_map]
  apply List.map_congr_left
  intro p _
  by_cases h : p.1 = k
  · simp [h]
  · simp [h]

theorem dictInsert_keys_new (d : List (String × ParameterRecord)) (k : String)
    (v : ParameterRecord) (hk : k ∉ d.map Prod.fst) :
    (dictInsert d k v).map Prod.fst = d.map Prod.fst ++ [k] := by
  unfold dictInsert
  rw [if_neg hk]
  simp

theorem dictInsert_keys_mono (d : List (String × ParameterRecord)) (k : String)
    (v : ParameterRecord) (x : String) (hx : x ∈ d.map Prod.fst) :
    x ∈ (dictInsert d k v).map Prod.fst := by
  by_cases hk : k ∈ d.map Prod.fst
  · rw [dictInsert_keys_update d k v hk]; exact hx
  · rw [dictInsert_keys_new d k v hk]; exact List.mem_append_left _ hx

theorem dictInsert_key_self (d : List (String × ParameterRecord)) (k : String)
    (v : ParameterRecord) : k ∈ (dictInsert d k v).map Prod.fst := by
  by_cases hk : k ∈ d.map Prod.fst
  · rw [dictInsert_keys_update d k v hk]; exact hk
  · rw [dictInsert_keys_new d k v hk]; exact List.mem_append_right _ (by simp)

theorem change_go_keys_mono (l : List ParameterRecord) :
    ∀ acc d, change_list_to_dict_go "ParameterName" l acc = Except.ok d →
      ∀ k, k ∈ acc.map Prod.fst → k ∈ d.map Prod.fst := by
  induction l with
  | nil =>
    intro acc d h k hk
    simp only [change_list_to_dict_go] at h
    injection h with h
    exact h ▸ hk
  | cons r rest ih =>
    intro acc d h k hk
    simp only [change_list_to_dict_go] at h
    split at h
    · exact Except.noConfusion h
    · rw [ParameterRecord.get_name] at h
      exact ih _ _ h k (dictInsert_keys_mono acc r.name r k hk)

theorem change_go_mem (l : List ParameterRecord) :
    ∀ acc d, change_list_to_dict_go "ParameterName" l acc = Except.ok d →
      ∀ p ∈ d, p ∈ acc ∨ (p.2 ∈ l ∧ p.1 = p.2.name) := by
  induction l with
  | nil =>
    intro acc d h p hp
    simp only [change_list_to_dict_go] at h
    injection h with h
    exact Or.inl (h ▸ hp)
  | cons r rest ih =>
    intro acc d h p hp
    simp only [change_list_to_dict_go] at h
    split at h
    · exact Except.noConfusion h
    · rw [ParameterRecord.get_name] at h
      rcases ih _ _ h p hp with hacc | ⟨hmem, hname⟩
      · rcases dictInsert_mem acc r.name r p hacc with h1 | h1
        · exact Or.inl h1
        · exact Or.inr ⟨by rw [h1]; exact List.mem_cons_self r rest,
            by rw [h1]⟩
      · exact Or.inr ⟨List.mem_cons_of_mem r hmem, hname⟩

theorem change_go_key_covers (l : List ParameterRecord) :
    ∀ acc d, change_list_to_dict_go "ParameterName" l acc = Except.ok d →
      ∀ r ∈ l, r.name ∈ d.map Prod.fst := by
  induction l with
  | nil => intro acc d h r hr; simp at hr
  | cons s rest ih =>
    intro acc d h r hr
    simp only [change_list_to_dict_go] at h
    split at h
    · exact Except.noConfusion h
    · rw [ParameterRecord.get_name] at h
      rcases List.mem_cons.mp hr with rfl | htail
      · exact change_go_keys_mono rest _ _ h r.name (dictInsert_key_self acc r.name r)
      · exact ih _ _ h r htail

theorem change_list_to_dict_mem (l : List ParameterRecord)
    (d : List (String × ParameterRecord))
    (h : change_list_to_dict l "ParameterName" = Except.ok d) :
    ∀ p ∈ d, p.2 ∈ l ∧ p.1 = p.2.name := by
  intro p hp
  rcases change_go_mem l [] d h p hp with hacc | hres
  · simp at hacc
  · exact hres

theorem change_list_to_dict_key_covers (l : List ParameterRecord)
    (d : List (String × ParameterRecord))
    (h : change_list_to_dict l "ParameterName" = Except.ok d) :
    ∀ r ∈ l, r.name ∈ d.map Prod.fst :=
  change_go_key_covers l [] d h

theorem change_go_nodup (l : List ParameterRecord) :
    ∀ acc d, (∀ r ∈ l, r.name ∉ acc.map Prod.fst) →
      change_list_to_dict_go "ParameterName" l acc = Except.ok d →
      (l.map ParameterRecord.name).Nodup →
      d = acc ++ l.map (fun r => (r.name, r)) := by
  induction l with
  | nil =>
    intro acc d _ h _
    simp only [change_list_to_dict_go] at h
    injection h with h
    simp [h.symm]
  | cons s rest ih =>
    intro acc d hfresh h hnd
    simp only [change_list_to_dict_go] at h
    split at h
    · exact Except.noConfusion h
    · rw [ParameterRecord.get_name] at h
      have hsname : s.name ∉ acc.map Prod.fst := hfresh s (List.mem_cons_self s rest)
      have hins : dictInsert acc s.name s = acc ++ [(s.name, s)] := by
        unfold dictInsert; rw [if_neg hsname]
      have h : change_list_to_dict_go "ParameterName" rest (dictInsert acc s.name s) =
          Except.ok d := h
      rw [hins] at h
      have hnds : (∀ x ∈ rest, ¬x.name = s.name) ∧
          (rest.map ParameterRecord.name).Nodup := by simpa using hnd
      have hnd1 : s.name ∉ rest.map ParameterRecord.name := by
        intro hmem
        rcases List.mem_map.mp hmem with ⟨r, hr, hrname⟩
        exact hnds.1 r hr hrname
      have hnd2 : (rest.map ParameterRecord.name).Nodup := hnds.2
      have hfresh2 : ∀ r ∈ rest, r.name ∉ (acc ++ [(s.name, s)]).map Prod.fst := by
        intro r hr
        simp only [List.map_append, List.mem_append]
        rintro (hinacc | hins2)
        · exact hfresh r (List.mem_cons_of_mem s hr) hinacc
        · have : r.name = s.name := by simpa using hins2
          exact hnd1 (this ▸ List.mem_map.mpr ⟨r, hr, rfl⟩)
      have := ih _ _ hfresh2 h hnd2
      rw [this]
      simp

theorem change_list_to_dict_nodup (l : List ParameterRecord)
    (d : List (String × ParameterRecord))
    (hnd : (l.map ParameterRecord.name).Nodup)
    (h : change_list_to_dict l "ParameterName" = Except.ok d) :
    d = l.map (fun r => (r.name, r)) := by
  have := change_go_nodup l [] d (by simp) h hnd
  simpa using this

theorem compare_loop1_report_mono (items : List (String × ParameterRecord)) :
    ∀ dp report diff e, e ∈ report →
      e ∈ (compare_loop1 items dp report diff).1 := by
  induction items with
  | nil =>
    intro dp report diff e he
    simpa [compare_loop1] using he
  | cons it rest ih =>
    intro dp report diff e he
    rcases it with ⟨n, r⟩
    simp only [compare_loop1]
    split
    · exact ih _ _ _ e (List.mem_append_left _ he)
    · split
      · exact ih _ _ _ e he
      · exact ih _ _ _ e (List.mem_append_left _ he)

theorem compare_loop1_diff_src (items : List (String × ParameterRecord)) :
    ∀ dp report diff q, q ∈ (compare_loop1 items dp report diff).2.1 →
      q ∈ diff ∨ ((∃ p ∈ items, q = p.2) ∧ q.value.isSome = true) := by
  induction items with
  | nil =>
    intro dp report diff q hq
    exact Or.inl (by simpa [compare_loop1] using hq)
  | cons it rest ih =>
    intro dp report diff q hq
    rcases it with ⟨n, r⟩
    simp only [compare_loop1] at hq
    have step : ∀ dp2 report2, q ∈ (compare_loop1 rest dp2 report2
        (append_if_value_present diff r)).2.1 →
        q ∈ diff ∨ ((∃ p ∈ (n, r) :: rest, q = p.2) ∧ q.value.isSome = true) := by
      intro dp2 report2 hq2
      rcases ih _ _ _ q hq2 with hdiff | ⟨⟨p, hp, hqp⟩, hval⟩
      · rcases append_if_value_present_mem diff r q hdiff with h1 | ⟨h1, h2⟩
        · exact Or.inl h1
        · exact Or.inr ⟨⟨(n, r), List.mem_cons_self _ _, h1⟩, h2⟩
      · exact Or.inr ⟨⟨p, List.mem_cons_of_mem _ hp, hqp⟩, hval⟩
    split at hq
    · exact step _ _ hq
    · split at hq
      · rcases ih _ _ _ q hq with hdiff | ⟨⟨p, hp, hqp⟩, hval⟩
        · exact Or.inl hdiff
        · exact Or.inr ⟨⟨p, List.mem_cons_of_mem _ hp, hqp⟩, hval⟩
      · exact step _ _ hq

theorem compare_loop1_dp_mem (items : List (String × ParameterRecord)) :
    ∀ dp report diff p, p ∈ dp → (∀ it ∈ items, it.1 ≠ p.1) →
      p ∈ (compare_loop1 items dp report diff).2.2 := by
  induction items with
  | nil =>
    intro dp report diff p hp _
    simpa [compare_loop1] using hp
  | cons it rest ih =>
    intro dp report diff p hp hne
    rcases it with ⟨n, r⟩
    have hn : n ≠ p.1 := hne (n, r) (List.mem_cons_self _ _)
    have hne2 : ∀ it ∈ rest, it.1 ≠ p.1 :=
      fun it hit => hne it (List.mem_cons_of_mem _ hit)
    simp only [compare_loop1]
    split
    · exact ih _ _ _ p hp hne2
    · split
      · exact ih _ _ _ p hp hne2
      · apply ih _ _ _ p _ hne2
        exact List.mem_filter.mpr ⟨hp, by simpa using fun h => hn h.symm⟩

theorem lookup_filter_ne (d : List (String × ParameterRecord)) (k m : String)
    (hkm : k ≠ m) :
    (d.filter (fun p => decide (p.1 ≠ m))).lookup k = d.lookup k := by
  induction d with
  | nil => rfl
  | cons p rest ih =>
    rcases p with ⟨pk, pv⟩
    by_cases hpm : pk = m
    · have hfilter : ((pk, pv) :: rest).filter (fun p => decide (p.1 ≠ m)) =
          rest.filter (fun p => decide (p.1 ≠ m)) := by
        simp [List.filter_cons, hpm]
      rw [hfilter, ih, List.lookup_cons,
        beq_false_of_ne (fun h => hkm (h.trans hpm))]
    · have hfilter : ((pk, pv) :: rest).filter (fun p => decide (p.1 ≠ m)) =
          (pk, pv) :: rest.filter (fun p => decide (p.1 ≠ m)) := by
        simp [List.filter_cons, hpm]
      rw [hfilter, List.lookup_cons, List.lookup_cons]
      by_cases hk : k = pk
      · have hb : (k == pk) = true := by simp [hk]
        rw [hb]
      · have hb : (k == pk) = false := beq_false_of_ne hk
        rw [hb]
        exact ih

theorem compare_loop1_report_mem (items : List (String × ParameterRecord)) :
    ∀ dp report diff n r, (items.map Prod.fst).Nodup → (n, r) ∈ items →
      ((dp.lookup n = none →
          ReportEntry.sourceOnly n r ∈ (compare_loop1 items dp report diff).1) ∧
       (∀ d, dp.lookup n = some d → r ≠ d →
          ReportEntry.changed n r d ∈ (compare_loop1 items dp report diff).1)) := by
  induction items with
  | nil => intro dp report diff n r _ hmem; simp at hmem
  | cons it rest ih =>
    intro dp report diff n r hnd hmem
    rcases it with ⟨m, s⟩
    have hnds : m ∉ rest.map Prod.fst ∧ (rest.map Prod.fst).Nodup := by
      rw [List.map_cons] at hnd
      exact List.nodup_cons.mp hnd
    rcases List.mem_cons.mp hmem with heq | htail
    · have hn : n = m := congrArg Prod.fst heq
      have hr : r = s := congrArg Prod.snd heq
      subst hn
      subst hr
      constructor
      · intro hnone
        simp only [compare_loop1]
        split
        · exact compare_loop1_report_mono rest _ _ _ _
            (List.mem_append_right _ (List.mem_singleton_self _))
        · rename_i dst heq2
          rw [hnone] at heq2
          exact Option.noConfusion heq2
      · intro d hsome hrd
        simp only [compare_loop1]
        split
        · rename_i heq2
          rw [hsome] at heq2
          exact Option.noConfusion heq2
        · rename_i dst heq2
          rw [hsome] at heq2
          injection heq2 with heq2
          subst heq2
          split
          · rename_i hrd2
            exact absurd hrd2 hrd
          · exact compare_loop1_report_mono rest _ _ _ _
              (List.mem_append_right _ (List.mem_singleton_self _))
    · have hn_in : n ∈ rest.map Prod.fst := List.mem_map.mpr ⟨(n, r), htail, rfl⟩
      have hmn : m ≠ n := fun hEq => hnds.1 (hEq ▸ hn_in)
      constructor
      · intro hnone
        simp only [compare_loop1]
        split
        · exact (ih _ _ _ n r hnds.2 htail).1 hnone
        · split
          · exact (ih _ _ _ n r hnds.2 htail).1 hnone
          · refine (ih _ _ _ n r hnds.2 htail).1 ?_
            rw [lookup_filter_ne dp n m (Ne.symm hmn)]
            exact hnone
      · intro d hsome hrd
        simp only [compare_loop1]
        split
        · exact (ih _ _ _ n r hnds.2 htail).2 d hsome hrd
        · split
          · exact (ih _ _ _ n r hnds.2 htail).2 d hsome hrd
          · refine (ih _ _ _ n r hnds.2 htail).2 d ?_ hrd
            rw [lookup_filter_ne dp n m (Ne.symm hmn)]
            exact hsome

theorem lookup_pairing_none (dst : List ParameterRecord) (x : String)
    (hx : ∀ d ∈ dst, d.name ≠ x) :
    (dst.map (fun r => (r.name, r))).lookup x = none := by
  induction dst with
  | nil => rfl
  | cons e rest ih =>
    have he : e.name ≠ x := hx e (List.mem_cons_self e rest)
    rw [List.map_cons, List.lookup_cons, beq_false_of_ne (Ne.symm he)]
    exact ih (fun d hd => hx d (List.mem_cons_of_mem e hd))

theorem lookup_pairing_some (dst : List ParameterRecord) (d : ParameterRecord)
    (hnd : (dst.map ParameterRecord.name).Nodup) (hd : d ∈ dst) :
    (dst.map (fun r => (r.name, r))).lookup d.name = some d := by
  induction dst with
  | nil => simp at hd
  | cons e rest ih =>
    have hnds : e.name ∉ rest.map ParameterRecord.name ∧
        (rest.map ParameterRecord.name).Nodup := by
      rw [List.map_cons] at hnd
      exact List.nodup_cons.mp hnd
    rcases List.mem_cons.mp hd with rfl | htail
    · rw [List.map_cons, List.lookup_cons]
      have hb : (d.name == d.name) = true := beq_self_eq_true d.name
      rw [hb]
    · have hne : e.name ≠ d.name := by
        intro hEq
        exact hnds.1 (hEq ▸ List.mem_map.mpr ⟨d, htail, rfl⟩)
      rw [List.map_cons, List.lookup_cons, beq_false_of_ne (Ne.symm hne)]
      exact ih hnds.2 htail

theorem post_parameters_go_ok (g : String) (chunklist : List (List ParameterRecord))
    (hval : ∀ ch ∈ chunklist, ∀ p ∈ ch, p.value.isSome = true) :
    post_parameters_go g chunklist =
      (chunklist.map (fun c => ModifyCall.mk g c), none) := by
  induction chunklist with
  | nil => rfl
  | cons c rest ih =>
    have hc : c.all (fun p => p.value.isSome) = true := by
      rw [List.all_eq_true]
      exact fun p hp => hval c (List.mem_cons_self c rest) p hp
    have hrest := ih (fun ch hch => hval ch (List.mem_cons_of_mem c hch))
    simp only [post_parameters_go, hc, if_true, hrest, List.map_cons]

theorem post_parameters_to_group_ok (g : String) (parameters : List ParameterRecord)
    (hval : ∀ p ∈ parameters, p.value.isSome = true) :
    post_parameters_to_group g parameters =
      ((chunks parameters 20).map (fun c => ModifyCall.mk g c), none) := by
  unfold post_parameters_to_group
  by_cases hlen : parameters.length = 0
  · rw [if_pos hlen]
    rw [List.length_eq_zero.mp hlen, chunks_nil]
    rfl
  · rw [if_neg hlen]
    exact post_parameters_go_ok g _
      (fun ch hch p hp => hval p (chunks_mem_subset parameters 20 ch hch p hp))

theorem modifiable_filter_foldl (l : List ParameterRecord) :
    ∀ acc, l.foldl
        (fun parameters_to_return p =>
          if p.isModifiable then append_if_value_present parameters_to_return p
          else parameters_to_return) acc =
      acc ++ l.filter (fun p => p.isModifiable && p.value.isSome) := by
  induction l with
  | nil => intro acc; simp
  | cons p rest ih =>
    intro acc
    simp only [List.foldl_cons, List.filter_cons]
    by_cases hm : p.isModifiable = true
    · by_cases hv : p.value.isSome = true
      · have hstep : (if p.isModifiable = true
            then append_if_value_present acc p else acc) = acc ++ [p] := by
          rw [if_pos hm]
          unfold append_if_value_present
          rw [if_pos hv]
        have hcond : (p.isModifiable && p.value.isSome) = true := by
          rw [hm, hv]; rfl
        rw [hstep, ih, hcond]
        simp
      · have hstep : (if p.isModifiable = true
            then append_if_value_present acc p else acc) = acc := by
          rw [if_pos hm]
          unfold append_if_value_present
          rw [if_neg hv]
        have hcond : (p.isModifiable && p.value.isSome) = false := by
          rw [hm, Bool.eq_false_iff.mpr hv]; rfl
        rw [hstep, ih, hcond]
        simp
    · have hstep : (if p.isModifiable = true
          then append_if_value_present acc p else acc) = acc := if_neg hm
      have hcond : (p.isModifiable && p.value.isSome) = false := by
        rw [Bool.eq_false_iff.mpr hm]; rfl
      rw [hstep, ih, hcond]
      simp

theorem modifiable_filter_eq_filter (all_parameters : List ParameterRecord) :
    return_all_modifiable_parameters_with_value_from_parameter_group all_parameters =
      all_parameters.filter (fun p => p.isModifiable && p.value.isSome) := by
  unfold return_all_modifiable_parameters_with_value_from_parameter_group
  simpa using modifiable_filter_foldl all_parameters []

/-- C8: the modifiable-filter returns exactly the order-preserving subsequence
of records whose modifiable flag is true and which carry a value. -/
theorem modifiable_filter_spec (all_parameters : List ParameterRecord) :
    return_all_modifiable_parameters_with_value_from_parameter_group all_parameters =
      all_parameters.filter (fun p => p.isModifiable && p.value.isSome) :=
  modifiable_filter_eq_filter all_parameters

theorem return_all_parameters_go_spec (g : String) :
    ∀ (responses : List PageResponse) (m0 : Option String) (hne : responses ≠ []),
      (∀ r ∈ responses.dropLast, r.marker.isSome = true) →
      (responses.getLast hne).marker = none →
      return_all_parameters_go g m0 responses =
        (PageRequest.mk g m0 ::
           responses.dropLast.map (fun r => PageRequest.mk g r.marker),
         (responses.map PageResponse.records).flatten) := by
  intro responses
  induction responses with
  | nil => intro m0 hne; exact absurd rfl hne
  | cons resp rest ih =>
    intro m0 hne hmid hlast
    rcases rest with _ | ⟨r2, rest2⟩
    · have hmark : resp.marker = none := by simpa using hlast
      simp [return_all_parameters_go, hmark]
    · have hrne : r2 :: rest2 ≠ [] := List.cons_ne_nil r2 rest2
      have hrespmid : resp ∈ (resp :: r2 :: rest2).dropLast := by
        rw [List.dropLast_cons₂]
        exact List.mem_cons_self _ _
      rcases Option.isSome_iff_exists.mp (hmid resp hrespmid) with ⟨m, hm⟩
      have hmid2 : ∀ r ∈ (r2 :: rest2).dropLast, r.marker.isSome = true := by
        intro r hr
        apply hmid
        rw [List.dropLast_cons₂]
        exact List.mem_cons_of_mem _ hr
      have hlast2 : ((r2 :: rest2).getLast hrne).marker = none := by
        rw [← List.getLast_cons hrne]
        exact hlast
      have hrec := ih (some m) hrne hmid2 hlast2
      rw [return_all_parameters_go, hm]
      show (match return_all_parameters_go g (some m) (r2 :: rest2) with
            | (reqs, recs) => (PageRequest.mk g m0 :: reqs, resp.records ++ recs)) =
        (PageRequest.mk g m0 ::
           (resp :: r2 :: rest2).dropLast.map (fun r => PageRequest.mk g r.marker),
         ((resp :: r2 :: rest2).map PageResponse.records).flatten)
      rw [hrec]
      simp [List.dropLast_cons₂, hm]

theorem compare_rds_parameters_ok (src dst : List ParameterRecord)
    (report : List ReportEntry) (diff : List ParameterRecord)
    (h : compare_rds_parameters src dst = Except.ok (report, diff)) :
    ∃ sp dp, change_list_to_dict src "ParameterName" = Except.ok sp ∧
      change_list_to_dict dst "ParameterName" = Except.ok dp ∧
      report = (compare_loop1 sp dp [] []).1 ++
        compare_loop2 sp (compare_loop1 sp dp [] []).2.2 ∧
      diff = (compare_loop1 sp dp [] []).2.1 := by
  unfold compare_rds_parameters at h
  split at h
  · exact Except.noConfusion h
  · rename_i sp hsp
    split at h
    · exact Except.noConfusion h
    · rename_i dp hdp
      split at h
      rename_i rep1 diff1 dpr hcl
      injection h with h2
      have hrep := congrArg Prod.fst h2
      have hdiff := congrArg Prod.snd h2
      refine ⟨sp, dp, hsp, hdp, ?_, ?_⟩
      · rw [hcl]
        exact hrep.symm
      · rw [hcl]
        exact hdiff.symm

/-- C2: for every source and destination collection (destination names unique,
as fetched listings are), every destination record whose name is absent from
the source is reported as destination-only and no element of the returned diff
list carries its name; the diff list holds only source records. -/
theorem compare_dest_only_excluded (src dst : List ParameterRecord)
    (hdst : (dst.map ParameterRecord.name).Nodup)
    (report : List ReportEntry) (diff : List ParameterRecord)
    (h : compare_rds_parameters src dst = Except.ok (report, diff)) :
    (∀ r ∈ dst, (∀ s ∈ src, s.name ≠ r.name) →
        ReportEntry.destOnly r.name r ∈ report ∧ ∀ q ∈ diff, q.name ≠ r.name) ∧
    (∀ q ∈ diff, q ∈ src) := by
  obtain ⟨sp, dp, hsp, hdp, hrep, hdiff⟩ :=
    compare_rds_parameters_ok src dst report diff h
  have hsp_mem := change_list_to_dict_mem src sp hsp
  have hdp_pair := change_list_to_dict_nodup dst dp hdst hdp
  have hdiff_src : ∀ q ∈ diff, q ∈ src := by
    intro q hq
    rw [hdiff] at hq
    rcases compare_loop1_diff_src sp dp [] [] q hq with h0 | ⟨⟨p, hp, hqp⟩, _⟩
    · simp at h0
    · exact hqp ▸ (hsp_mem p hp).1
  refine ⟨?_, hdiff_src⟩
  intro r hr hfresh
  have hkey : (r.name, r) ∈ dp := by
    rw [hdp_pair]
    exact List.mem_map.mpr ⟨r, hr, rfl⟩
  have hsurvive : (r.name, r) ∈ (compare_loop1 sp dp [] []).2.2 := by
    apply compare_loop1_dp_mem sp dp [] [] (r.name, r) hkey
    intro it hit hEq
    have hm := hsp_mem it hit
    exact hfresh it.2 hm.1 (by rw [← hm.2]; exact hEq)
  have hnotin : r.name ∉ sp.map Prod.fst := by
    intro hmem
    rcases List.mem_map.mp hmem with ⟨it, hit, hfst⟩
    exact hfresh it.2 (hsp_mem it hit).1 (by rw [← (hsp_mem it hit).2, hfst])
  constructor
  · rw [hrep]
    apply List.mem_append_right
    unfold compare_loop2
    exact List.mem_filterMap.mpr ⟨(r.name, r), hsurvive, by rw [if_neg hnotin]⟩
  · intro q hq hEq
    exact hfresh q (hdiff_src q hq) hEq

/-- C2 witness: comparing an empty source against a one-record destination
reports that record as destination-only. -/
theorem compare_dest_only_excluded_witness :
    ReportEntry.destOnly "b" (ParameterRecord.mk "b" (some "2") true []) ∈
      [ReportEntry.destOnly "b" (ParameterRecord.mk "b" (some "2") true [])] :=
  ((compare_dest_only_excluded []
      [ParameterRecord.mk "b" (some "2") true []] (by decide)
      [ReportEntry.destOnly "b" (ParameterRecord.mk "b" (some "2") true [])] []
      (by rfl)).1
    (ParameterRecord.mk "b" (some "2") true []) (by decide) (by decide)).1

/-- C4: for collections with unique names, the diff list holds only records
that carry a value, so a source-only or changed source record without a value
is excluded from it, while the printed comparison report still shows the
corresponding source-only or changed line. -/
theorem compare_valueless_report (src dst : List ParameterRecord)
    (hsrc : (src.map ParameterRecord.name).Nodup)
    (hdst : (dst.map ParameterRecord.name).Nodup)
    (report : List ReportEntry) (diff : List ParameterRecord)
    (h : compare_rds_parameters src dst = Except.ok (report, diff)) :
    (∀ q ∈ diff, q.value.isSome = true) ∧
    ∀ r ∈ src, r.value = none →
      r ∉ diff ∧
      ((∀ d ∈ dst, d.name ≠ r.name) → ReportEntry.sourceOnly r.name r ∈ report) ∧
      (∀ d ∈ dst, d.name = r.name → r ≠ d →
        ReportEntry.changed r.name r d ∈ report) := by
  obtain ⟨sp, dp, hsp, hdp, hrep, hdiff⟩ :=
    compare_rds_parameters_ok src dst report diff h
  have hsp_pair := change_list_to_dict_nodup src sp hsrc hsp
  have hdp_pair := change_list_to_dict_nodup dst dp hdst hdp
  have hdiffval : ∀ q ∈ diff, q.value.isSome = true := by
    intro q hq
    rw [hdiff] at hq
    rcases compare_loop1_diff_src sp dp [] [] q hq with h0 | ⟨_, hval⟩
    · simp at h0
    · exact hval
  refine ⟨hdiffval, ?_⟩
  intro r hr hval
  have hspnd : (sp.map Prod.fst).Nodup := by
    rw [hsp_pair, List.map_map]
    simpa [Function.comp] using hsrc
  have hmem : (r.name, r) ∈ sp := by
    rw [hsp_pair]
    exact List.mem_map.mpr ⟨r, hr, rfl⟩
  have hrm := compare_loop1_report_mem sp dp [] [] r.name r hspnd hmem
  refine ⟨?_, ?_, ?_⟩
  · intro hq
    have := hdiffval r hq
    rw [hval] at this
    simp at this
  · intro hfresh
    have hlook : dp.lookup r.name = none := by
      rw [hdp_pair]
      exact lookup_pairing_none dst r.name hfresh
    rw [hrep]
    exact List.mem_append_left _ (hrm.1 hlook)
  · intro d hd hdname hrd
    have hlook : dp.lookup r.name = some d := by
      rw [hdp_pair, ← hdname]
      exact lookup_pairing_some dst d hdst hd
    rw [hrep]
    exact List.mem_append_left _ (hrm.2 d hlook hrd)

/-- C4 witness: a valueless source-only record is absent from the diff list
yet present in the report. -/
theorem compare_valueless_report_witness :
    (ParameterRecord.mk "c" none true []) ∉ ([] : List ParameterRecord) ∧
    ReportEntry.sourceOnly "c" (ParameterRecord.mk "c" none true []) ∈
      [ReportEntry.sourceOnly "c" (ParameterRecord.mk "c" none true [])] := by
  have h := compare_valueless_report [ParameterRecord.mk "c" none true []] []
    (by decide) (by decide)
    [ReportEntry.sourceOnly "c" (ParameterRecord.mk "c" none true [])] []
    (by rfl)
  have h2 := h.2 (ParameterRecord.mk "c" none true []) (by decide) rfl
  exact ⟨h2.1, h2.2.1 (by decide)⟩

/-- C5: given records that carry values (the invariant every caller
establishes), the batch applier issues exactly the ceiling of n over 20
modify calls, to the given group, each carrying at most 20 records, whose
concatenated payloads equal the input in order; an empty input issues no
call. -/
theorem post_parameters_spec (g : String) (parameters : List ParameterRecord)
    (hval : ∀ p ∈ parameters, p.value.isSome = true) :
    (post_parameters_to_group g parameters).2 = none ∧
    (post_parameters_to_group g parameters).1.length =
      (parameters.length + 20 - 1) / 20 ∧
    (∀ call ∈ (post_parameters_to_group g parameters).1,
        call.group = g ∧ call.parameters.length ≤ 20) ∧
    ((post_parameters_to_group g parameters).1.map ModifyCall.parameters).flatten =
      parameters ∧
    (parameters = [] → (post_parameters_to_group g parameters).1 = []) := by
  have hpost := post_parameters_to_group_ok g parameters hval
  have h1 : (post_parameters_to_group g parameters).1 =
      (chunks parameters 20).map (fun c => ModifyCall.mk g c) := by rw [hpost]
  have h2 : (post_parameters_to_group g parameters).2 = none := by rw [hpost]
  refine ⟨h2, ?_, ?_, ?_, ?_⟩
  · rw [h1, List.length_map]
    exact chunks_length parameters 20 (by omega)
  · intro call hcall
    rw [h1] at hcall
    rcases List.mem_map.mp hcall with ⟨c, hc, hcEq⟩
    rw [← hcEq]
    exact ⟨rfl, chunks_length_le parameters 20 c hc⟩
  · rw [h1, List.map_map]
    have hid : (ModifyCall.parameters ∘ fun c => ModifyCall.mk g c) = id := rfl
    rw [hid, List.map_id]
    exact chunks_flatten parameters 20 (by omega)
  · intro hparams
    rw [h1, hparams, chunks_nil]
    rfl

/-- C5 witness: the applier evaluated on a one-record valued list. -/
theorem post_parameters_spec_witness :
    (post_parameters_to_group "g"
        [ParameterRecord.mk "a" (some "1") true []]).2 = none ∧
    (post_parameters_to_group "g"
        [ParameterRecord.mk "a" (some "1") true []]).1.length =
      ([ParameterRecord.mk "a" (some "1") true []].length + 20 - 1) / 20 :=
  ⟨(post_parameters_spec "g" [ParameterRecord.mk "a" (some "1") true []]
      (by decide)).1,
   (post_parameters_spec "g" [ParameterRecord.mk "a" (some "1") true []]
      (by decide)).2.1⟩

/-- C6: a Copy whose destination group name already appears in the destination
region's listing raises the already-exists error and issues no mutating remote
call at all (no create-group call and no modify-parameters call). -/
theorem copy_already_exists_no_mutation (source_family source_description : String)
    (source_all_parameters : List ParameterRecord)
    (groups_in_dest_region : List String) (dest_param_group : String)
    (hmem : dest_param_group ∈ groups_in_dest_region) :
    copy_rds_parameters source_family source_description source_all_parameters
        groups_in_dest_region dest_param_group =
      ([], some ("This group (" ++ dest_param_group ++
        ") already exists in region.")) := by
  unfold copy_rds_parameters
  rw [if_pos hmem]

/-- C6 witness: a concrete colliding Copy invocation. -/
theorem copy_already_exists_no_mutation_witness :
    copy_rds_parameters "fam" "desc"
        [ParameterRecord.mk "a" (some "1") true []] ["dup"] "dup" =
      ([], some ("This group (" ++ "dup" ++ ") already exists in region.")) :=
  copy_already_exists_no_mutation "fam" "desc"
    [ParameterRecord.mk "a" (some "1") true []] ["dup"] "dup" (by decide)

/-- C7: when every non-final response carries a cursor and the final response
omits it, the fetcher returns the concatenation of all responses' records in
response order, issuing the first request without a cursor and each subsequent
request with the cursor of the prior response. -/
theorem return_all_parameters_pagination (g : String)
    (responses : List PageResponse) (hne : responses ≠ [])
    (hmid : ∀ r ∈ responses.dropLast, r.marker.isSome = true)
    (hlast : (responses.getLast hne).marker = none) :
    return_all_parameters_from_parameter_group g responses =
      (PageRequest.mk g none ::
         responses.dropLast.map (fun r => PageRequest.mk g r.marker),
       (responses.map PageResponse.records).flatten) :=
  return_all_parameters_go_spec g responses none hne hmid hlast

/-- A concrete two-page response sequence: the first page carries a cursor,
the second omits it. -/
def pagPages : List PageResponse :=
  [PageResponse.mk [ParameterRecord.mk "a" (some "1") true []] (some "tok"),
   PageResponse.mk [ParameterRecord.mk "b" (some "2") false []] none]

/-- C7 witness: the pagination protocol evaluated on the two-page sequence. -/
theorem return_all_parameters_pagination_witness :
    return_all_parameters_from_parameter_group "grp" pagPages =
      (PageRequest.mk "grp" none ::
         pagPages.dropLast.map (fun r => PageRequest.mk "grp" r.marker),
       (pagPages.map PageResponse.records).flatten) :=
  return_all_parameters_pagination "grp" pagPages (by decide) (by decide)
    (by decide)

/-- C9 counterexample: with the ambient default region unset, startup fails
with the import-time KeyError even though a source region is explicitly
supplied — the claim asserts startup succeeds in this situation. -/
theorem startup_region_claim_counterexample :
    startup_source_region none (some "us-west-2") =
      Except.error "KeyError: AWS_DEFAULT_REGION" := rfl

/-- C9 (amended): startup fails, before any remote call, exactly when the
ambient default-region setting is unset — regardless of any explicitly
supplied source region, because the module-level environment read runs before
argument parsing; when the ambient setting holds a region, startup succeeds
and the source region is the supplied one if given, else the ambient
default. -/
theorem startup_region_eager_env_read
    (env_default_region supplied_source_region : Option String) :
    (env_default_region = none →
       startup_source_region env_default_region supplied_source_region =
         Except.error "KeyError: AWS_DEFAULT_REGION") ∧
    ∀ d, env_default_region = some d →
      startup_source_region env_default_region supplied_source_region =
        Except.ok (supplied_source_region.getD d) := by
  constructor
  · intro h
    rw [h]
    rfl
  · intro d h
    rw [h]
    rfl

/-- C9 witness: with the ambient default present, a supplied region wins. -/
theorem startup_region_eager_env_read_witness :
    startup_source_region (some "us-east-1") (some "us-west-2") =
      Except.ok "us-west-2" :=
  (startup_region_eager_env_read (some "us-east-1") (some "us-west-2")).2
    "us-east-1" rfl

/-- C10: every record in the diff list a successful comparison produces, and
every record the modifiable-filter produces, carries a value, so the batch
applier's per-record report access of the value field never fails (no
KeyError) on either workflow's input. -/
theorem applier_value_invariant (g : String)
    (src dst all : List ParameterRecord)
    (report : List ReportEntry) (diff : List ParameterRecord)
    (h : compare_rds_parameters src dst = Except.ok (report, diff)) :
    ((∀ q ∈ diff, q.value.isSome = true) ∧
      (post_parameters_to_group g diff).2 = none) ∧
    ((∀ q ∈ return_all_modifiable_parameters_with_value_from_parameter_group all,
        q.value.isSome = true) ∧
      (post_parameters_to_group g
        (return_all_modifiable_parameters_with_value_from_parameter_group
          all)).2 = none) := by
  obtain ⟨sp, dp, hsp, hdp, hrep, hdiff⟩ :=
    compare_rds_parameters_ok src dst report diff h
  have hdiffval : ∀ q ∈ diff, q.value.isSome = true := by
    intro q hq
    rw [hdiff] at hq
    rcases compare_loop1_diff_src sp dp [] [] q hq with h0 | ⟨_, hval⟩
    · simp at h0
    · exact hval
  have hfiltval :
      ∀ q ∈ return_all_modifiable_parameters_with_value_from_parameter_group all,
        q.value.isSome = true := by
    intro q hq
    rw [modifiable_filter_eq_filter] at hq
    have hb := (List.mem_filter.mp hq).2
    simp only [Bool.and_eq_true] at hb
    exact hb.2
  refine ⟨⟨hdiffval, ?_⟩, ⟨hfiltval, ?_⟩⟩
  · rw [post_parameters_to_group_ok g diff hdiffval]
  · rw [post_parameters_to_group_ok g _ hfiltval]

/-- C10 witness: the invariant evaluated on a concrete comparison (diff list
`[a]`) and a concrete filter input. -/
theorem applier_value_invariant_witness :
    (post_parameters_to_group "g"
        [ParameterRecord.mk "a" (some "1") true []]).2 = none ∧
    (post_parameters_to_group "g"
        (return_all_modifiable_parameters_with_value_from_parameter_group
          [ParameterRecord.mk "c" none true []])).2 = none := by
  have h := applier_value_invariant "g"
    [ParameterRecord.mk "a" (some "1") true []] []
    [ParameterRecord.mk "c" none true []]
    [ReportEntry.sourceOnly "a" (ParameterRecord.mk "a" (some "1") true [])]
    [ParameterRecord.mk "a" (some "1") true []] (by rfl)
  exact ⟨h.1.2, h.2.2⟩
